import Mathlib

/-!
Verification of the frontier-management / crawl-orchestration core of the
sitemap crawler (`crawler.js`).  The crawler object's mutable fields become a
`CrawlState`; `queueUrls` and the body of `autoFetch` become pure state
transformers; the fetch-and-extract collaborator (`webService.getWeb` composed
with `rulesService.checkRules`) becomes an oracle `String → Option (List String)`
(`some links` on success, `none` on a fetch failure).  Concurrency inside a
batch is modelled by a step relation: a dispatch step splices a batch out of
the frontier (all the synchronous per-URL bookkeeping of the `map` callbacks
happens before any `await`, hence in one step), and resolution steps fire in an
arbitrary order, one in-flight URL at a time, matching the single-threaded
event loop.
-/

/- ### Definitions: the shallow embedding and concrete scenarios -/

/-- The configuration values the crawler reads (`config.base`,
`config.crawlLevel`, `config.pageLoad.batchSize`).  The config module itself is
not part of the core, so the values are parameters here. -/
structure CrawlConfig where
  base : String
  crawlLevel : Int
  batchSize : Nat
deriving Repr, DecidableEq

/-- JS `str.split('/')` for a single-character separator: split a character
list at every occurrence of `c`.  The result always has (number of
occurrences of `c`) + 1 pieces, exactly like the JS `split`. -/
def splitOnChar (c : Char) : List Char → List (List Char)
  | [] => [[]]
  | x :: xs =>
    let r := splitOnChar c xs
    if x = c then [] :: r
    else
      match r with
      | [] => [[x]]
      | y :: ys => (x :: y) :: ys

/-- `url.split('/').length` from the source. -/
def segCount (s : String) : Nat :=
  (splitOnChar (Char.ofNat 47) s.toList).length

/-- `this.baseUrlHashes = config.base.split('/').length`. -/
def baseUrlHashes (cfg : CrawlConfig) : Nat :=
  segCount cfg.base

/-- `const urlDepth = url.split('/').length - this.baseUrlHashes;` — JS number
subtraction may go negative, hence `Int`. -/
def urlDepth (cfg : CrawlConfig) (url : String) : Int :=
  (segCount url : Int) - (baseUrlHashes cfg : Int)

/-- Underscore's `_.uniq`: drop duplicates keeping the first occurrence.
`seen` accumulates the elements already emitted. -/
def uniqAux {α : Type} [DecidableEq α] (seen : List α) : List α → List α
  | [] => []
  | x :: xs => if x ∈ seen then uniqAux seen xs else x :: uniqAux (x :: seen) xs

/-- `_.uniq list`. -/
def uniq {α : Type} [DecidableEq α] (l : List α) : List α :=
  uniqAux [] l

/-- Underscore's `_.union(a, b)`: concatenate then dedup keeping first
occurrences. -/
def union {α : Type} [DecidableEq α] (a b : List α) : List α :=
  uniq (a ++ b)

/-- The crawler object's mutable fields (`counter`, `allUrls`, `processes`,
`processesCompleted`, `dataFetched`). -/
structure CrawlState where
  counter : Nat
  allUrls : List String
  processes : List String
  processesCompleted : List String
  dataFetched : Nat
deriving Repr, DecidableEq

/-- `const removingCompleted = _.uniq(_.without(urls, ...this.processesCompleted));` -/
def removingCompleted (s : CrawlState) (urls : List String) : List String :=
  uniq (urls.filter (fun u => decide (u ∉ s.processesCompleted)))

/-- `const removingQueued = _.without(removingCompleted, ...this.processes);` -/
def removingQueued (s : CrawlState) (urls : List String) : List String :=
  (removingCompleted s urls).filter (fun u => decide (u ∉ s.processes))

/-- `const removingIngoreLevels = _.filter(removingQueued, url => { ... urlDepth <= config.crawlLevel });`
(the source's spelling of the name is kept). -/
def removingIngoreLevels (cfg : CrawlConfig) (s : CrawlState) (urls : List String) : List String :=
  (removingQueued s urls).filter (fun url => decide (urlDepth cfg url ≤ cfg.crawlLevel))

/-- `const urlsIgnored = _.difference(urls, removingIngoreLevels);` -/
def urlsIgnored (cfg : CrawlConfig) (s : CrawlState) (urls : List String) : List String :=
  urls.filter (fun u => decide (u ∉ removingIngoreLevels cfg s urls))

/-- `crawler.queueUrls(urls)`: the ignored URLs are pushed onto
`processesCompleted` and the surviving ones appended (with `_.uniq`) to
`processes`; no other field is touched. -/
def queueUrls (cfg : CrawlConfig) (s : CrawlState) (urls : List String) : CrawlState :=
  { s with
    processesCompleted := s.processesCompleted ++ urlsIgnored cfg s urls,
    processes := uniq (s.processes ++ removingIngoreLevels cfg s urls) }

/-- One resolution handler from `autoFetch`'s batch: on success the new URLs
are unioned into `allUrls`, `dataFetched` is incremented and `queueUrls` runs;
on failure (`catch`) only `dataFetched` is incremented. -/
def resolveOne (cfg : CrawlConfig) (oracle : String → Option (List String))
    (s : CrawlState) (u : String) : CrawlState :=
  match oracle u with
  | some links =>
      queueUrls cfg
        { s with allUrls := union s.allUrls links, dataFetched := s.dataFetched + 1 }
        links
  | none => { s with dataFetched := s.dataFetched + 1 }

/-- `config.pageLoad.batchSize || 5`: a zero (falsy) batch size falls back
to 5. -/
def effBatchSize (cfg : CrawlConfig) : Nat :=
  if cfg.batchSize = 0 then 5 else cfg.batchSize

/-- A state of the running crawl.  `crawl` is the crawler object; `inFlight`
is the current batch's URLs whose fetches have not yet resolved; `dispatched`
is a ghost history of every URL on which `webService.getWeb` has been invoked
(in invocation order). -/
structure ExecState where
  crawl : CrawlState
  inFlight : List String
  dispatched : List String
deriving Repr, DecidableEq

/-- Modelled from the spec: the seeding caller (an entry script not under
`src/`) per spec section 4.1, `seed(baseUrl)` — Frontier = {baseUrl},
DiscoveredSet = {baseUrl}, all counters zero. -/
def initState (base : String) : CrawlState :=
  { counter := 0, allUrls := [base], processes := [base],
    processesCompleted := [], dataFetched := 0 }

/-- The starting execution state: freshly seeded, nothing in flight. -/
def initExec (base : String) : ExecState :=
  { crawl := initState base, inFlight := [], dispatched := [] }

/-- The synchronous part of one `autoFetch` round:
`this.processes.splice(0, batchSize)` plus, for each batch URL (the `map`
callbacks run synchronously up to their first `await`), `this.counter++` and
`this.processesCompleted.push(xmUrl)`; the fetches are started, so the batch
is recorded in `inFlight` and in the ghost `dispatched` history. -/
def dispatchStep (cfg : CrawlConfig) (e : ExecState) : ExecState :=
  let batch := e.crawl.processes.take (effBatchSize cfg)
  { crawl :=
      { e.crawl with
        processes := e.crawl.processes.drop (effBatchSize cfg),
        counter := e.crawl.counter + batch.length,
        processesCompleted := e.crawl.processesCompleted ++ batch },
    inFlight := batch,
    dispatched := e.dispatched ++ batch }

/-- One fetch resolution: the handler for `u` runs (atomically, on the single
event-loop thread) and `u` leaves the in-flight set. -/
def resolveStep (cfg : CrawlConfig) (oracle : String → Option (List String))
    (e : ExecState) (u : String) : ExecState :=
  { crawl := resolveOne cfg oracle e.crawl u,
    inFlight := e.inFlight.erase u,
    dispatched := e.dispatched }

/-- The crawl's small-step transition relation.  A new batch is dispatched
only when the previous one has fully resolved (`Promise.all` barrier) and the
frontier is non-empty; any in-flight fetch may resolve next. -/
inductive CrawlStep (cfg : CrawlConfig) (oracle : String → Option (List String)) :
    ExecState → ExecState → Prop
  | dispatch (e e' : ExecState) :
      e.inFlight = [] → e.crawl.processes ≠ [] →
      e' = dispatchStep cfg e → CrawlStep cfg oracle e e'
  | resolve (e e' : ExecState) (u : String) :
      u ∈ e.inFlight → e' = resolveStep cfg oracle e u →
      CrawlStep cfg oracle e e'

/-- States reachable from the seeded crawl by any interleaving of dispatches
and resolutions. -/
def CrawlReachable (cfg : CrawlConfig) (oracle : String → Option (List String))
    (base : String) (e : ExecState) : Prop :=
  Relation.ReflTransGen (CrawlStep cfg oracle) (initExec base) e

/-- Resolve a list of in-flight URLs in order (one deterministic schedule). -/
def resolveList (cfg : CrawlConfig) (oracle : String → Option (List String)) :
    ExecState → List String → ExecState
  | e, [] => e
  | e, u :: rest => resolveList cfg oracle (resolveStep cfg oracle e u) rest

/-- The recursive `autoFetch` loop under the deterministic schedule that
resolves each batch in dispatch order.  `some e` means the loop reached one of
its two sitemap-finalization branches in state `e`; `none` means the fuel ran
out, or the loop fell through its `else if` (returning without finalizing). -/
def autoFetchRun (cfg : CrawlConfig) (oracle : String → Option (List String)) :
    Nat → ExecState → Option ExecState
  | 0, _ => none
  | fuel + 1, e =>
    if e.crawl.processes = [] then some e
    else
      let e1 := dispatchStep cfg e
      let e2 := resolveList cfg oracle e1 e1.inFlight
      if e2.crawl.processes ≠ [] then autoFetchRun cfg oracle fuel e2
      else if e2.crawl.counter = e2.crawl.dataFetched then some e2
      else none

/-- Facts that hold in every reachable execution state: the frontier and the
dispatch history are duplicate-free, the dispatch history is inside
`processesCompleted` (each batch URL is pushed there at dispatch time), the
frontier never meets the dispatch history or the in-flight set, the dispatch
counter always exceeds `dataFetched` by exactly the number of in-flight
fetches, and the frontier and in-flight URLs are all in `allUrls`. -/
structure CrawlInv (e : ExecState) : Prop where
  ndProc : e.crawl.processes.Nodup
  ndDisp : e.dispatched.Nodup
  ndInFl : e.inFlight.Nodup
  inflSubDisp : ∀ u ∈ e.inFlight, u ∈ e.dispatched
  dispSubComp : ∀ u ∈ e.dispatched, u ∈ e.crawl.processesCompleted
  procDisjDisp : ∀ u ∈ e.crawl.processes, u ∉ e.dispatched
  counterEq : e.crawl.counter = e.crawl.dataFetched + e.inFlight.length
  procSubAll : ∀ u ∈ e.crawl.processes, u ∈ e.crawl.allUrls
  inflSubAll : ∀ u ∈ e.inFlight, u ∈ e.crawl.allUrls
  inflSubComp : ∀ u ∈ e.inFlight, u ∈ e.crawl.processesCompleted
  procDisjInfl : ∀ u ∈ e.crawl.processes, u ∉ e.inFlight

/-- All URLs that have ever entered the frontier or the completed list. -/
def entered (e : ExecState) : Finset String :=
  (e.crawl.processes ++ e.crawl.processesCompleted).toFinset

/-- Every URL the crawl is tracking lies in the finite universe `U`. -/
def InUniverse (U : Finset String) (e : ExecState) : Prop :=
  ∀ u ∈ e.crawl.processes ++ e.crawl.processesCompleted, u ∈ U

/-- The oracle only ever reports links inside the universe `U`. -/
def OracleClosed (U : Finset String) (oracle : String → Option (List String)) : Prop :=
  ∀ u links, oracle u = some links → ∀ v ∈ links, v ∈ U

/-- Ranking function: fresh universe URLs count double, frontier entries count
double, in-flight fetches count once.  Every step strictly decreases it. -/
def crawlMeasure (U : Finset String) (e : ExecState) : Nat :=
  2 * (U.card - (entered e).card) + 2 * e.crawl.processes.length + e.inFlight.length

/-- The crawl is done: nothing queued and nothing in flight. -/
def Terminal (e : ExecState) : Prop :=
  e.inFlight = [] ∧ e.crawl.processes = []

/-- Tiny site for exercising `queueUrls` alone: base `"b/"`, maximum depth 1. -/
def qcfg : CrawlConfig := { base := "b/", crawlLevel := 1, batchSize := 5 }

/-- An empty crawler state, as the object literal starts (before seeding). -/
def qs0 : CrawlState :=
  { counter := 0, allUrls := [], processes := [], processesCompleted := [], dataFetched := 0 }

/-- Oracle where the base page links to `"b/a"` and every other page has no
links. -/
def qoracle : String → Option (List String) := fun u =>
  if u = "b/" then some ["b/a"] else some []

/-- Oracle where every fetch fails. -/
def failOracle : String → Option (List String) := fun _ => none

/-- Site where the base page has six links and page `"b/1"` rediscovers
`"b/6"` while `"b/6"` is still queued (batch size 5 leaves it behind). -/
def c1oracle : String → Option (List String) := fun u =>
  if u = "b/" then some ["b/1", "b/2", "b/3", "b/4", "b/5", "b/6"]
  else if u = "b/1" then some ["b/6"]
  else some []

/-- After the seed batch `["b/"]` is dispatched. -/
def c1e1 : ExecState := dispatchStep qcfg (initExec "b/")

/-- After the base page resolves: six URLs queued. -/
def c1e2 : ExecState := resolveStep qcfg c1oracle c1e1 "b/"

/-- After the second batch `["b/1", ..., "b/5"]` is dispatched;
`"b/6"` stays queued. -/
def c1e3 : ExecState := dispatchStep qcfg c1e2

/-- After `"b/1"` resolves, re-presenting `"b/6"` to `queueUrls`. -/
def c1e4 : ExecState := resolveStep qcfg c1oracle c1e3 "b/1"

/-- The spec section 8 scenario configuration: seed
`"https://example.com/"`, maxDepth = 1. -/
def c2cfg : CrawlConfig :=
  { base := "https://example.com/", crawlLevel := 1, batchSize := 5 }

/-- The spec section 8 fetcher: `/` links to `/a`, `/b` and
`/deep/path/too/far` (depth 3); `/a` and `/b` have no further links. -/
def c2oracle : String → Option (List String) := fun u =>
  if u = "https://example.com/" then
    some ["https://example.com/a", "https://example.com/b",
          "https://example.com/deep/path/too/far"]
  else some []

/-- The state in which the spec section 8 crawl finalizes. -/
def finalC2 : ExecState :=
  { crawl :=
      { counter := 3,
        allUrls := ["https://example.com/", "https://example.com/a",
          "https://example.com/b", "https://example.com/deep/path/too/far"],
        processes := [],
        processesCompleted := ["https://example.com/",
          "https://example.com/deep/path/too/far", "https://example.com/a",
          "https://example.com/b"],
        dataFetched := 3 },
    inFlight := [],
    dispatched := ["https://example.com/", "https://example.com/a",
      "https://example.com/b"] }

/-- After the seed batch of the section 8 scenario is dispatched. -/
def c7e1 : ExecState := dispatchStep c2cfg (initExec "https://example.com/")

/-- After the seed batch of the section 8 scenario fully resolves: the batch
is done but the frontier holds `/a` and `/b`. -/
def c7e2 : ExecState := resolveStep c2cfg c2oracle c7e1 "https://example.com/"

/-- Failure-isolation scenario: the base page links to ten URLs, the fetch of
`"b/x"` fails, `"b/1"` links to one further page. -/
def c8cfg : CrawlConfig := { base := "b/", crawlLevel := 9, batchSize := 5 }

/-- The failure-isolation oracle (1 of 10 URLs fails). -/
def c8oracle : String → Option (List String) := fun u =>
  if u = "b/" then
    some ["b/1", "b/2", "b/3", "b/4", "b/5", "b/6", "b/7", "b/8", "b/9", "b/x"]
  else if u = "b/x" then none
  else if u = "b/1" then some ["b/1/c"]
  else some []

/-- The state in which the failure-isolation crawl finalizes. -/
def c8final : ExecState :=
  { crawl :=
      { counter := 12,
        allUrls := ["b/", "b/1", "b/2", "b/3", "b/4", "b/5", "b/6", "b/7",
          "b/8", "b/9", "b/x", "b/1/c"],
        processes := [],
        processesCompleted := ["b/", "b/1", "b/2", "b/3", "b/4", "b/5", "b/6",
          "b/7", "b/8", "b/9", "b/x", "b/1/c"],
        dataFetched := 12 },
    inFlight := [],
    dispatched := ["b/", "b/1", "b/2", "b/3", "b/4", "b/5", "b/6", "b/7",
      "b/8", "b/9", "b/x", "b/1/c"] }

/- ### Theorems -/

theorem mem_uniqAux {α : Type} [DecidableEq α] (a : α) :
    ∀ (l seen : List α), a ∈ uniqAux seen l ↔ a ∈ l ∧ a ∉ seen := by
  intro l
  induction l with
  | nil => intro seen; simp [uniqAux]
  | cons x xs ih =>
    intro seen
    by_cases hx : x ∈ seen
    · simp only [uniqAux, if_pos hx, ih]
      constructor
      · rintro ⟨h1, h2⟩; exact ⟨List.mem_cons_of_mem _ h1, h2⟩
      · rintro ⟨h1, h2⟩
        rcases List.mem_cons.mp h1 with rfl | h
        · exact absurd hx h2
        · exact ⟨h, h2⟩
    · simp only [uniqAux, if_neg hx]
      by_cases hax : a = x
      · subst hax
        simp [hx]
      · simp only [List.mem_cons, hax, false_or, ih]

theorem mem_uniq {α : Type} [DecidableEq α] (a : α) (l : List α) :
    a ∈ uniq l ↔ a ∈ l := by
  simp [uniq, mem_uniqAux]

theorem nodup_uniqAux {α : Type} [DecidableEq α] :
    ∀ (l seen : List α), (uniqAux seen l).Nodup := by
  intro l
  induction l with
  | nil => intro seen; simp [uniqAux]
  | cons x xs ih =>
    intro seen
    by_cases hx : x ∈ seen
    · simpa [uniqAux, if_pos hx] using ih seen
    · simp only [uniqAux, if_neg hx, List.nodup_cons]
      refine ⟨fun hmem => ?_, ih _⟩
      have := (mem_uniqAux x xs _).mp hmem
      exact this.2 (List.mem_cons_self _ _)

theorem nodup_uniq {α : Type} [DecidableEq α] (l : List α) : (uniq l).Nodup :=
  nodup_uniqAux l []

theorem uniqAux_eq_self {α : Type} [DecidableEq α] :
    ∀ (l seen : List α), l.Nodup → (∀ a ∈ l, a ∉ seen) → uniqAux seen l = l := by
  intro l
  induction l with
  | nil => intro seen _ _; rfl
  | cons x xs ih =>
    intro seen hnd hdisj
    have hx : x ∉ seen := hdisj x (List.mem_cons_self _ _)
    simp only [uniqAux, if_neg hx]
    have hnd' := (List.nodup_cons.mp hnd)
    refine congrArg (x :: ·) (ih _ hnd'.2 ?_)
    intro a ha
    simp only [List.mem_cons]
    rintro (rfl | h)
    · exact hnd'.1 ha
    · exact hdisj a (List.mem_cons_of_mem _ ha) h

theorem uniq_eq_self_of_nodup {α : Type} [DecidableEq α] (l : List α)
    (h : l.Nodup) : uniq l = l :=
  uniqAux_eq_self l [] h (by simp)

theorem length_uniqAux_le {α : Type} [DecidableEq α] :
    ∀ (l seen : List α), (uniqAux seen l).length ≤ l.length := by
  intro l
  induction l with
  | nil => intro seen; simp [uniqAux]
  | cons x xs ih =>
    intro seen
    by_cases hx : x ∈ seen
    · simp only [uniqAux, if_pos hx]
      exact Nat.le_succ_of_le (ih seen)
    · simp only [uniqAux, if_neg hx, List.length_cons]
      exact Nat.succ_le_succ (ih _)

theorem length_uniq_le {α : Type} [DecidableEq α] (l : List α) :
    (uniq l).length ≤ l.length :=
  length_uniqAux_le l []

theorem mem_union {α : Type} [DecidableEq α] (a : α) (l₁ l₂ : List α) :
    a ∈ union l₁ l₂ ↔ a ∈ l₁ ∨ a ∈ l₂ := by
  simp [union, mem_uniq]

theorem mem_removingIngoreLevels (cfg : CrawlConfig) (s : CrawlState)
    (urls : List String) (u : String) :
    u ∈ removingIngoreLevels cfg s urls ↔
      u ∈ urls ∧ u ∉ s.processesCompleted ∧ u ∉ s.processes ∧
        urlDepth cfg u ≤ cfg.crawlLevel := by
  simp only [removingIngoreLevels, removingQueued, removingCompleted,
    List.mem_filter, mem_uniq, decide_eq_true_eq]
  tauto

theorem mem_urlsIgnored (cfg : CrawlConfig) (s : CrawlState)
    (urls : List String) (u : String) :
    u ∈ urlsIgnored cfg s urls ↔
      u ∈ urls ∧ u ∉ removingIngoreLevels cfg s urls := by
  simp [urlsIgnored, List.mem_filter]

theorem queueUrls_allUrls (cfg : CrawlConfig) (s : CrawlState) (urls : List String) :
    (queueUrls cfg s urls).allUrls = s.allUrls := rfl

theorem queueUrls_counter (cfg : CrawlConfig) (s : CrawlState) (urls : List String) :
    (queueUrls cfg s urls).counter = s.counter := rfl

theorem queueUrls_dataFetched (cfg : CrawlConfig) (s : CrawlState) (urls : List String) :
    (queueUrls cfg s urls).dataFetched = s.dataFetched := rfl

theorem mem_queueUrls_processes (cfg : CrawlConfig) (s : CrawlState)
    (urls : List String) (u : String) :
    u ∈ (queueUrls cfg s urls).processes ↔
      u ∈ s.processes ∨ u ∈ removingIngoreLevels cfg s urls := by
  simp [queueUrls, mem_uniq]

theorem mem_queueUrls_processesCompleted (cfg : CrawlConfig) (s : CrawlState)
    (urls : List String) (u : String) :
    u ∈ (queueUrls cfg s urls).processesCompleted ↔
      u ∈ s.processesCompleted ∨ u ∈ urlsIgnored cfg s urls := by
  simp [queueUrls]

theorem nodup_queueUrls_processes (cfg : CrawlConfig) (s : CrawlState)
    (urls : List String) : (queueUrls cfg s urls).processes.Nodup :=
  nodup_uniq _

theorem inv_init (base : String) : CrawlInv (initExec base) := by
  constructor <;> simp [initExec, initState]

theorem inv_dispatch (cfg : CrawlConfig) (e : ExecState)
    (hin : e.inFlight = []) (hInv : CrawlInv e) : CrawlInv (dispatchStep cfg e) := by
  have hsplit := List.take_append_drop (effBatchSize cfg) e.crawl.processes
  have hndtd : (e.crawl.processes.take (effBatchSize cfg) ++
      e.crawl.processes.drop (effBatchSize cfg)).Nodup := by
    rw [hsplit]; exact hInv.ndProc
  have h3 := List.nodup_append.mp hndtd
  have htake : e.crawl.processes.take (effBatchSize cfg) ⊆ e.crawl.processes :=
    List.take_subset _ _
  have hdrop : e.crawl.processes.drop (effBatchSize cfg) ⊆ e.crawl.processes :=
    List.drop_subset _ _
  simp only [dispatchStep]
  constructor
  · exact h3.2.1
  · exact hInv.ndDisp.append h3.1 (fun a ha hb => hInv.procDisjDisp a (htake hb) ha)
  · exact h3.1
  · intro u hu; exact List.mem_append_right _ hu
  · intro u hu
    rcases List.mem_append.mp hu with h | h
    · exact List.mem_append_left _ (hInv.dispSubComp u h)
    · exact List.mem_append_right _ h
  · intro u hu hmem
    rcases List.mem_append.mp hmem with h | h
    · exact hInv.procDisjDisp u (hdrop hu) h
    · exact h3.2.2 h hu
  · have hc := hInv.counterEq
    rw [hin] at hc
    simp only [List.length_nil] at hc
    dsimp only
    omega
  · intro u hu; exact hInv.procSubAll u (hdrop hu)
  · intro u hu; exact hInv.procSubAll u (htake hu)
  · intro u hu; exact List.mem_append_right _ hu
  · intro u hu hmem; exact h3.2.2 hmem hu

theorem inv_resolve (cfg : CrawlConfig) (oracle : String → Option (List String))
    (e : ExecState) (u : String) (hu : u ∈ e.inFlight) (hInv : CrawlInv e) :
    CrawlInv (resolveStep cfg oracle e u) := by
  have herase : ∀ v, v ∈ e.inFlight.erase u → v ∈ e.inFlight :=
    fun v hv => List.mem_of_mem_erase hv
  have hlen : (e.inFlight.erase u).length = e.inFlight.length - 1 :=
    List.length_erase_of_mem hu
  have hpos : 0 < e.inFlight.length := List.length_pos.mpr (by
    intro hnil; rw [hnil] at hu; exact List.not_mem_nil u hu)
  cases horacle : oracle u with
  | none =>
    simp only [resolveStep, resolveOne, horacle]
    constructor
    · exact hInv.ndProc
    · exact hInv.ndDisp
    · exact hInv.ndInFl.erase u
    · intro v hv; exact hInv.inflSubDisp v (herase v hv)
    · exact hInv.dispSubComp
    · exact hInv.procDisjDisp
    · have hc := hInv.counterEq
      dsimp only
      simp only [hlen]
      omega
    · exact hInv.procSubAll
    · intro v hv; exact hInv.inflSubAll v (herase v hv)
    · intro v hv; exact hInv.inflSubComp v (herase v hv)
    · intro v hv hmem; exact hInv.procDisjInfl v hv (herase v hmem)
  | some links =>
    simp only [resolveStep, resolveOne, horacle]
    constructor
    · exact nodup_queueUrls_processes _ _ _
    · exact hInv.ndDisp
    · exact hInv.ndInFl.erase u
    · intro v hv; exact hInv.inflSubDisp v (herase v hv)
    · intro v hv
      rw [mem_queueUrls_processesCompleted]
      exact Or.inl (hInv.dispSubComp v hv)
    · intro v hv hdisp
      rcases (mem_queueUrls_processes _ _ _ _).mp hv with h | h
      · exact hInv.procDisjDisp v h hdisp
      · have := (mem_removingIngoreLevels _ _ _ _).mp h
        exact this.2.1 (hInv.dispSubComp v hdisp)
    · have hc := hInv.counterEq
      dsimp only
      simp only [queueUrls_counter, queueUrls_dataFetched, hlen]
      omega
    · intro v hv
      rcases (mem_queueUrls_processes _ _ _ _).mp hv with h | h
      · rw [queueUrls_allUrls]
        exact (mem_union v _ _).mpr (Or.inl (hInv.procSubAll v h))
      · have := (mem_removingIngoreLevels _ _ _ _).mp h
        rw [queueUrls_allUrls]
        exact (mem_union v _ _).mpr (Or.inr this.1)
    · intro v hv
      rw [queueUrls_allUrls]
      exact (mem_union v _ _).mpr (Or.inl (hInv.inflSubAll v (herase v hv)))
    · intro v hv
      rw [mem_queueUrls_processesCompleted]
      exact Or.inl (hInv.inflSubComp v (herase v hv))
    · intro v hv hmem
      rcases (mem_queueUrls_processes _ _ _ _).mp hv with h | h
      · exact hInv.procDisjInfl v h (herase v hmem)
      · have := (mem_removingIngoreLevels _ _ _ _).mp h
        exact this.2.1 (hInv.inflSubComp v (herase v hmem))

theorem inv_step (cfg : CrawlConfig) (oracle : String → Option (List String))
    (e e' : ExecState) (hInv : CrawlInv e) (hstep : CrawlStep cfg oracle e e') :
    CrawlInv e' := by
  cases hstep with
  | dispatch hin hne heq => subst heq; exact inv_dispatch cfg e hin hInv
  | resolve u hmem heq => subst heq; exact inv_resolve cfg oracle e u hmem hInv

theorem inv_reachable (cfg : CrawlConfig) (oracle : String → Option (List String))
    (base : String) (e : ExecState) (h : CrawlReachable cfg oracle base e) :
    CrawlInv e := by
  induction h with
  | refl => exact inv_init base
  | tail hab hbc ih => exact inv_step _ _ _ _ ih hbc

theorem effBatchSize_pos (cfg : CrawlConfig) : 0 < effBatchSize cfg := by
  unfold effBatchSize
  split <;> omega

theorem removingIngoreLevels_subset (cfg : CrawlConfig) (s : CrawlState)
    (urls : List String) : ∀ u ∈ removingIngoreLevels cfg s urls, u ∈ urls :=
  fun u hu => ((mem_removingIngoreLevels cfg s urls u).mp hu).1

theorem urlsIgnored_subset (cfg : CrawlConfig) (s : CrawlState)
    (urls : List String) : ∀ u ∈ urlsIgnored cfg s urls, u ∈ urls :=
  fun u hu => ((mem_urlsIgnored cfg s urls u).mp hu).1

theorem nodup_removingIngoreLevels (cfg : CrawlConfig) (s : CrawlState)
    (urls : List String) : (removingIngoreLevels cfg s urls).Nodup :=
  ((nodup_uniq _).filter _).filter _

theorem inU_init (base : String) (U : Finset String) (hbase : base ∈ U) :
    InUniverse U (initExec base) := by
  intro u hu
  simp [initExec, initState] at hu
  subst hu
  exact hbase

theorem inU_step (cfg : CrawlConfig) (oracle : String → Option (List String))
    (U : Finset String) (e e' : ExecState) (hclosed : OracleClosed U oracle)
    (hU : InUniverse U e) (hstep : CrawlStep cfg oracle e e') : InUniverse U e' := by
  cases hstep with
  | dispatch hin hne heq =>
    subst heq
    intro u hu
    simp only [dispatchStep, List.mem_append] at hu
    rcases hu with h | h | h
    · exact hU u (List.mem_append_left _ (List.drop_subset _ _ h))
    · exact hU u (List.mem_append_right _ h)
    · exact hU u (List.mem_append_left _ (List.take_subset _ _ h))
  | resolve u hmem heq =>
    subst heq
    cases horacle : oracle u with
    | none =>
      intro v hv
      simp only [resolveStep, resolveOne, horacle, List.mem_append] at hv
      rcases hv with h | h
      · exact hU v (List.mem_append_left _ h)
      · exact hU v (List.mem_append_right _ h)
    | some links =>
      intro v hv
      simp only [resolveStep, resolveOne, horacle] at hv
      rcases List.mem_append.mp hv with h | h
      · rcases (mem_queueUrls_processes _ _ _ _).mp h with h' | h'
        · exact hU v (List.mem_append_left _ h')
        · exact hclosed u links horacle v (removingIngoreLevels_subset _ _ _ v h')
      · rcases (mem_queueUrls_processesCompleted _ _ _ _).mp h with h' | h'
        · exact hU v (List.mem_append_right _ h')
        · exact hclosed u links horacle v (urlsIgnored_subset _ _ _ v h')

theorem entered_subset_of_inU (U : Finset String) (e : ExecState)
    (hU : InUniverse U e) : entered e ⊆ U := by
  intro u hu
  exact hU u (List.mem_toFinset.mp hu)

theorem measure_decreases (cfg : CrawlConfig) (oracle : String → Option (List String))
    (U : Finset String) (e e' : ExecState) (hclosed : OracleClosed U oracle)
    (hU : InUniverse U e) (hstep : CrawlStep cfg oracle e e') :
    crawlMeasure U e' < crawlMeasure U e := by
  cases hstep with
  | dispatch hin hne heq =>
    subst heq
    have hent : entered (dispatchStep cfg e) = entered e := by
      apply Finset.ext
      intro a
      simp only [entered, dispatchStep, List.mem_toFinset, List.mem_append]
      constructor
      · rintro (h | h | h)
        · exact Or.inl (List.drop_subset _ _ h)
        · exact Or.inr h
        · exact Or.inl (List.take_subset _ _ h)
      · rintro (h | h)
        · rw [← List.take_append_drop (effBatchSize cfg) e.crawl.processes] at h
          rcases List.mem_append.mp h with h | h
          · exact Or.inr (Or.inr h)
          · exact Or.inl h
        · exact Or.inr (Or.inl h)
    have hlenpos : 0 < e.crawl.processes.length :=
      List.length_pos.mpr hne
    have hbpos := effBatchSize_pos cfg
    have hlen1 : (dispatchStep cfg e).crawl.processes.length =
        e.crawl.processes.length - effBatchSize cfg := by
      simp [dispatchStep]
    have hlen2 : (dispatchStep cfg e).inFlight.length =
        min (effBatchSize cfg) e.crawl.processes.length := by
      simp [dispatchStep]
    simp only [crawlMeasure, hent, hlen1, hlen2, hin, List.length_nil]
    omega
  | resolve u hmem heq =>
    subst heq
    have hlen : (e.inFlight.erase u).length = e.inFlight.length - 1 :=
      List.length_erase_of_mem hmem
    have hpos : 0 < e.inFlight.length := List.length_pos.mpr (by
      intro hnil; rw [hnil] at hmem; exact List.not_mem_nil u hmem)
    cases horacle : oracle u with
    | none =>
      have hent : entered (resolveStep cfg oracle e u) = entered e := by
        simp [entered, resolveStep, resolveOne, horacle]
      have hlen1 : (resolveStep cfg oracle e u).crawl.processes.length =
          e.crawl.processes.length := by
        simp [resolveStep, resolveOne, horacle]
      have hlen2 : (resolveStep cfg oracle e u).inFlight.length =
          e.inFlight.length - 1 := hlen
      simp only [crawlMeasure, hent, hlen1, hlen2]
      omega
    | some links =>
      set s1 : CrawlState :=
        { e.crawl with allUrls := union e.crawl.allUrls links,
                       dataFetched := e.crawl.dataFetched + 1 } with hs1
      set r : List String := removingIngoreLevels cfg s1 links with hr
      have hrmem : ∀ v ∈ r, v ∈ links ∧ v ∉ e.crawl.processesCompleted ∧
          v ∉ e.crawl.processes := by
        intro v hv
        have := (mem_removingIngoreLevels cfg s1 links v).mp hv
        exact ⟨this.1, this.2.1, this.2.2.1⟩
      have hrnodup : r.Nodup := nodup_removingIngoreLevels cfg s1 links
      -- the frontier can grow by at most `r.length`
      have hplen : (resolveStep cfg oracle e u).crawl.processes.length ≤
          e.crawl.processes.length + r.length := by
        simp only [resolveStep, resolveOne, horacle]
        calc (queueUrls cfg s1 links).processes.length
            ≤ (s1.processes ++ r).length := length_uniq_le _
          _ = e.crawl.processes.length + r.length := by simp [hs1]
      -- `entered` grows by at least `r.length`
      have hsub : entered e ∪ r.toFinset ⊆ entered (resolveStep cfg oracle e u) := by
        intro a ha
        rcases Finset.mem_union.mp ha with ha | ha
        · have hmem' := List.mem_append.mp (List.mem_toFinset.mp ha)
          refine List.mem_toFinset.mpr (List.mem_append.mpr ?_)
          simp only [resolveStep, resolveOne, horacle]
          rcases hmem' with h | h
          · exact Or.inl ((mem_queueUrls_processes _ _ _ _).mpr (Or.inl h))
          · exact Or.inr ((mem_queueUrls_processesCompleted _ _ _ _).mpr (Or.inl h))
        · have har : a ∈ r := List.mem_toFinset.mp ha
          refine List.mem_toFinset.mpr (List.mem_append.mpr ?_)
          simp only [resolveStep, resolveOne, horacle]
          exact Or.inl ((mem_queueUrls_processes _ _ _ _).mpr (Or.inr har))
      have hdisj : Disjoint (entered e) r.toFinset := by
        rw [Finset.disjoint_left]
        intro a ha har
        have hmem' := List.mem_toFinset.mp ha
        have := hrmem a (List.mem_toFinset.mp har)
        rcases List.mem_append.mp hmem' with h | h
        · exact this.2.2 h
        · exact this.2.1 h
      have hcard1 : (entered e).card + r.length ≤
          (entered (resolveStep cfg oracle e u)).card := by
        have := Finset.card_le_card hsub
        rw [Finset.card_union_of_disjoint hdisj, List.toFinset_card_of_nodup hrnodup] at this
        exact this
      have hcard2 : (entered (resolveStep cfg oracle e u)).card ≤ U.card :=
        Finset.card_le_card (entered_subset_of_inU U _
          (inU_step cfg oracle U e _ hclosed hU
            (CrawlStep.resolve e _ u hmem rfl)))
      have hinfl : (resolveStep cfg oracle e u).inFlight.length =
          e.inFlight.length - 1 := hlen
      simp only [crawlMeasure, hinfl]
      omega

theorem crawl_progress (cfg : CrawlConfig) (oracle : String → Option (List String))
    (e : ExecState) (h : ¬ Terminal e) : ∃ e', CrawlStep cfg oracle e e' := by
  cases hin : e.inFlight with
  | nil =>
    have hne : e.crawl.processes ≠ [] := fun hp => h ⟨hin, hp⟩
    exact ⟨_, CrawlStep.dispatch _ _ hin hne rfl⟩
  | cons v rest =>
    exact ⟨_, CrawlStep.resolve _ _ v (by rw [hin]; exact List.mem_cons_self v rest) rfl⟩

theorem reach_terminal_aux (cfg : CrawlConfig) (oracle : String → Option (List String))
    (U : Finset String) (hclosed : OracleClosed U oracle) :
    ∀ (n : Nat) (e : ExecState), crawlMeasure U e ≤ n → InUniverse U e →
      ∃ t, Relation.ReflTransGen (CrawlStep cfg oracle) e t ∧ Terminal t := by
  intro n
  induction n with
  | zero =>
    intro e hm hU
    by_cases ht : Terminal e
    · exact ⟨e, Relation.ReflTransGen.refl, ht⟩
    · obtain ⟨e', hstep⟩ := crawl_progress cfg oracle e ht
      have hdec := measure_decreases cfg oracle U e e' hclosed hU hstep
      omega
  | succ n ih =>
    intro e hm hU
    by_cases ht : Terminal e
    · exact ⟨e, Relation.ReflTransGen.refl, ht⟩
    · obtain ⟨e', hstep⟩ := crawl_progress cfg oracle e ht
      have hdec := measure_decreases cfg oracle U e e' hclosed hU hstep
      obtain ⟨t, hrt, htt⟩ := ih e' (by omega)
        (inU_step cfg oracle U e e' hclosed hU hstep)
      exact ⟨t, Relation.ReflTransGen.head hstep hrt, htt⟩

theorem exists_reachable_terminal (cfg : CrawlConfig)
    (oracle : String → Option (List String)) (base : String) (U : Finset String)
    (hbase : base ∈ U) (hclosed : OracleClosed U oracle) :
    ∃ t, CrawlReachable cfg oracle base t ∧ Terminal t :=
  reach_terminal_aux cfg oracle U hclosed (crawlMeasure U (initExec base))
    (initExec base) (Nat.le_refl _) (inU_init base U hbase)

theorem no_infinite_run_aux (cfg : CrawlConfig)
    (oracle : String → Option (List String)) (base : String) (U : Finset String)
    (hbase : base ∈ U) (hclosed : OracleClosed U oracle)
    (f : Nat → ExecState) (h0 : f 0 = initExec base)
    (hstep : ∀ n, CrawlStep cfg oracle (f n) (f (n + 1))) : False := by
  have hU : ∀ n, InUniverse U (f n) := by
    intro n
    induction n with
    | zero => rw [h0]; exact inU_init base U hbase
    | succ n ih => exact inU_step cfg oracle U _ _ hclosed ih (hstep n)
  have hdec : ∀ n, crawlMeasure U (f (n + 1)) < crawlMeasure U (f n) :=
    fun n => measure_decreases cfg oracle U _ _ hclosed (hU n) (hstep n)
  have hb : ∀ n, crawlMeasure U (f n) + n ≤ crawlMeasure U (f 0) := by
    intro n
    induction n with
    | zero => omega
    | succ n ih => have := hdec n; omega
  have := hb (crawlMeasure U (f 0) + 1)
  omega

theorem resolveOne_dataFetched (cfg : CrawlConfig)
    (oracle : String → Option (List String)) (s : CrawlState) (u : String) :
    (resolveOne cfg oracle s u).dataFetched = s.dataFetched + 1 := by
  cases h : oracle u <;> simp [resolveOne, h, queueUrls_dataFetched]

theorem step_completed_mono (cfg : CrawlConfig)
    (oracle : String → Option (List String)) (e e' : ExecState)
    (hstep : CrawlStep cfg oracle e e') :
    ∀ u ∈ e.crawl.processesCompleted, u ∈ e'.crawl.processesCompleted := by
  cases hstep with
  | dispatch hin hne heq =>
    subst heq
    intro u hu
    simp only [dispatchStep]
    exact List.mem_append_left _ hu
  | resolve v hmem heq =>
    subst heq
    intro u hu
    cases horacle : oracle v with
    | none => simpa [resolveStep, resolveOne, horacle] using hu
    | some links =>
      simp only [resolveStep, resolveOne, horacle]
      exact (mem_queueUrls_processesCompleted _ _ _ _).mpr (Or.inl hu)

theorem step_allUrls_mono (cfg : CrawlConfig)
    (oracle : String → Option (List String)) (e e' : ExecState)
    (hstep : CrawlStep cfg oracle e e') :
    ∀ v ∈ e.crawl.allUrls, v ∈ e'.crawl.allUrls := by
  cases hstep with
  | dispatch hin hne heq =>
    subst heq
    intro v hv
    simpa [dispatchStep] using hv
  | resolve u hmem heq =>
    subst heq
    intro v hv
    cases horacle : oracle u with
    | none => simpa [resolveStep, resolveOne, horacle] using hv
    | some links =>
      simp only [resolveStep, resolveOne, horacle, queueUrls_allUrls]
      exact (mem_union v _ _).mpr (Or.inl hv)

/-- C1, counterexample: in the reachable state `c1e4` the URL `"b/6"` is in
the Frontier (`processes`) and in the Completed set (`processesCompleted`) at
the same time — `queueUrls` pushed it onto `processesCompleted` (via
`urlsIgnored`) when `"b/1"` rediscovered it while it was still queued — so a
URL recorded as Completed can simultaneously be in the Frontier, refuting the
exactly-one partition. -/
theorem completed_meets_frontier_counterexample :
    CrawlReachable qcfg c1oracle "b/" c1e4 ∧
    "b/6" ∈ c1e4.crawl.processes ∧ "b/6" ∈ c1e4.crawl.processesCompleted := by
  refine ⟨?_, by decide, by decide⟩
  show Relation.ReflTransGen (CrawlStep qcfg c1oracle) (initExec "b/") c1e4
  refine Relation.ReflTransGen.head (CrawlStep.dispatch _ _ rfl (by decide) rfl) ?_
  refine Relation.ReflTransGen.head (CrawlStep.resolve _ _ "b/" (by decide) rfl) ?_
  refine Relation.ReflTransGen.head (CrawlStep.dispatch _ _ (by decide) (by decide) rfl) ?_
  exact Relation.ReflTransGen.single (CrawlStep.resolve _ _ "b/1" (by decide) rfl)

/-- C1, amended: at every reachable state the Frontier and the in-flight batch
are disjoint and every in-flight URL is already recorded in
`processesCompleted` (it is pushed there at dispatch time); `processesCompleted`
is absorbing — no step ever removes a URL from it.  However (see the
counterexample) a URL recorded as Completed may simultaneously remain in the
Frontier when it is re-presented to `queueUrls` while queued, so the three
sets do not partition the URLs. -/
theorem frontier_inflight_disjoint_completed_absorbing
    (cfg : CrawlConfig) (oracle : String → Option (List String)) (base : String) :
    (∀ e, CrawlReachable cfg oracle base e →
        (∀ u ∈ e.crawl.processes, u ∉ e.inFlight) ∧
        (∀ u ∈ e.inFlight, u ∈ e.crawl.processesCompleted)) ∧
    (∀ e e', CrawlStep cfg oracle e e' →
        ∀ u ∈ e.crawl.processesCompleted, u ∈ e'.crawl.processesCompleted) := by
  constructor
  · intro e he
    have hInv := inv_reachable cfg oracle base e he
    exact ⟨hInv.procDisjInfl, hInv.inflSubComp⟩
  · intro e e' hstep
    exact step_completed_mono cfg oracle e e' hstep

/-- Witness for the amended C1, at the reachable state `c1e3` (second batch in
flight): the queued `"b/6"` is not in flight, and the in-flight `"b/1"` is
already in `processesCompleted`. -/
theorem frontier_inflight_disjoint_completed_absorbing_witness :
    "b/6" ∉ c1e3.inFlight ∧ "b/1" ∈ c1e3.crawl.processesCompleted := by
  have hreach : CrawlReachable qcfg c1oracle "b/" c1e3 := by
    show Relation.ReflTransGen (CrawlStep qcfg c1oracle) (initExec "b/") c1e3
    refine Relation.ReflTransGen.head (CrawlStep.dispatch _ _ rfl (by decide) rfl) ?_
    refine Relation.ReflTransGen.head (CrawlStep.resolve _ _ "b/" (by decide) rfl) ?_
    exact Relation.ReflTransGen.single (CrawlStep.dispatch _ _ (by decide) (by decide) rfl)
  have h := (frontier_inflight_disjoint_completed_absorbing qcfg c1oracle "b/").1 c1e3 hreach
  exact ⟨h.1 "b/6" (by decide), h.2 "b/1" (by decide)⟩

/-- C2, counterexample: running the spec section 8 scenario to completion, the
final `allUrls` handed to the sitemap writer contains
`"https://example.com/deep/path/too/far"`, so it does not equal
`{"/", "/a", "/b"}` — `autoFetch` unions all extracted links into `allUrls`
before `queueUrls` applies the depth filter. -/
theorem deep_url_in_final_set_counterexample :
    autoFetchRun c2cfg c2oracle 3 (initExec "https://example.com/") = some finalC2 ∧
    "https://example.com/deep/path/too/far" ∈ finalC2.crawl.allUrls ∧
    ¬ (∀ u ∈ finalC2.crawl.allUrls,
        u ∈ ["https://example.com/", "https://example.com/a",
             "https://example.com/b"]) := by
  exact ⟨by decide, by decide, by decide⟩

/-- C2, amended: in the spec section 8 scenario the crawl completes with
DiscoveredSet `{"/", "/a", "/b", "/deep/path/too/far"}` (absolute URLs): the
depth filter keeps `/deep/path/too/far` out of the Frontier — it is never
dispatched to the fetcher — but it is still recorded in `allUrls` and hence
appears in the final set handed to the Sitemap Writer. -/
theorem scenario_final_set :
    autoFetchRun c2cfg c2oracle 3 (initExec "https://example.com/") = some finalC2 ∧
    finalC2.crawl.allUrls = ["https://example.com/", "https://example.com/a",
      "https://example.com/b", "https://example.com/deep/path/too/far"] ∧
    "https://example.com/deep/path/too/far" ∉ finalC2.dispatched ∧
    finalC2.crawl.processes = [] ∧ finalC2.inFlight = [] := by
  exact ⟨by decide, by decide, by decide, by decide, by decide⟩

/-- C3, counterexample: `"b/a"` survives the dedup and depth filters
(`removingIngoreLevels`), and `queueUrls` appends it to the Frontier — but not
to `allUrls`, which `queueUrls` never touches; so `queueUrls` does not append
survivors to the DiscoveredSet. -/
theorem queueUrls_skips_discovered_set_counterexample :
    "b/a" ∈ removingIngoreLevels qcfg qs0 ["b/a"] ∧
    "b/a" ∈ (queueUrls qcfg qs0 ["b/a"]).processes ∧
    "b/a" ∉ (queueUrls qcfg qs0 ["b/a"]).allUrls := by
  exact ⟨by decide, by decide, by decide⟩

/-- C3, amended: `queueUrls` appends every candidate that survives the
dedup/depth pipeline to the Frontier only and leaves `allUrls` exactly
unchanged; extracted URLs enter the DiscoveredSet in `autoFetch`'s resolution
handler instead, which unions the whole extracted list (depth filtering not
applied) into `allUrls` before calling `queueUrls`. -/
theorem queueUrls_frontier_only (cfg : CrawlConfig)
    (oracle : String → Option (List String)) :
    (∀ s urls, (queueUrls cfg s urls).allUrls = s.allUrls) ∧
    (∀ s urls u, u ∈ removingIngoreLevels cfg s urls →
        u ∈ (queueUrls cfg s urls).processes) ∧
    (∀ s u links, oracle u = some links →
        (resolveOne cfg oracle s u).allUrls = union s.allUrls links) := by
  refine ⟨fun s urls => rfl, ?_, ?_⟩
  · intro s urls u hu
    exact (mem_queueUrls_processes cfg s urls u).mpr (Or.inr hu)
  · intro s u links h
    simp [resolveOne, h, queueUrls_allUrls]

/-- Witness for the amended C3 at concrete inputs. -/
theorem queueUrls_frontier_only_witness :
    "b/a" ∈ (queueUrls qcfg qs0 ["b/a"]).processes ∧
    (resolveOne qcfg qoracle qs0 "b/").allUrls = union qs0.allUrls ["b/a"] := by
  constructor
  · exact (queueUrls_frontier_only qcfg qoracle).2.1 qs0 ["b/a"] "b/a" (by decide)
  · exact (queueUrls_frontier_only qcfg qoracle).2.2 qs0 "b/" ["b/a"] (by decide)

/-- C4, counterexample: `queueUrls` is not idempotent — on the second call
with the same singleton candidate list the state changes again: the candidate,
now sitting in the Frontier, is classified into `urlsIgnored` and pushed onto
`processesCompleted`, which was empty after the first call. -/
theorem queueUrls_not_idempotent_counterexample :
    queueUrls qcfg (queueUrls qcfg qs0 ["b/a"]) ["b/a"] ≠ queueUrls qcfg qs0 ["b/a"] ∧
    (queueUrls qcfg (queueUrls qcfg qs0 ["b/a"]) ["b/a"]).processesCompleted = ["b/a"] ∧
    (queueUrls qcfg qs0 ["b/a"]).processesCompleted = [] := by
  exact ⟨by decide, by decide, by decide⟩

/-- C4, amended: the second of two identical `queueUrls` calls leaves the
Frontier (`processes`) and the DiscoveredSet (`allUrls`) unchanged — only
`processesCompleted` can still grow (the counterexample shows it does). -/
theorem queueUrls_idempotent_on_frontier_and_discovered (cfg : CrawlConfig)
    (s : CrawlState) (urls : List String) :
    (queueUrls cfg (queueUrls cfg s urls) urls).processes =
      (queueUrls cfg s urls).processes ∧
    (queueUrls cfg (queueUrls cfg s urls) urls).allUrls =
      (queueUrls cfg s urls).allUrls := by
  refine ⟨?_, rfl⟩
  have hrq : removingQueued (queueUrls cfg s urls) urls = [] := by
    rw [List.eq_nil_iff_forall_not_mem]
    intro a ha
    rw [removingQueued, List.mem_filter] at ha
    obtain ⟨ha1, ha2⟩ := ha
    have ha2' : a ∉ (queueUrls cfg s urls).processes := of_decide_eq_true ha2
    apply ha2'
    have ha1' : a ∈ urls ∧ a ∉ (queueUrls cfg s urls).processesCompleted := by
      rw [removingCompleted, mem_uniq, List.mem_filter] at ha1
      exact ⟨ha1.1, of_decide_eq_true ha1.2⟩
    have hnotig : a ∉ urlsIgnored cfg s urls := by
      intro hig
      exact ha1'.2 ((mem_queueUrls_processesCompleted cfg s urls a).mpr (Or.inr hig))
    have hril : a ∈ removingIngoreLevels cfg s urls := by
      by_contra hno
      exact hnotig ((mem_urlsIgnored cfg s urls a).mpr ⟨ha1'.1, hno⟩)
    exact (mem_queueUrls_processes cfg s urls a).mpr (Or.inr hril)
  have hril2 : removingIngoreLevels cfg (queueUrls cfg s urls) urls = [] := by
    rw [removingIngoreLevels, hrq]
    rfl
  have hrw : (queueUrls cfg (queueUrls cfg s urls) urls).processes =
      uniq ((queueUrls cfg s urls).processes ++
        removingIngoreLevels cfg (queueUrls cfg s urls) urls) := rfl
  rw [hrw, hril2, List.append_nil,
    uniq_eq_self_of_nodup _ (nodup_queueUrls_processes cfg s urls)]

/-- C5: no URL is ever dispatched to the fetch collaborator twice — in every
reachable state the ghost history of `webService.getWeb` invocations contains
every URL at most once. -/
theorem no_duplicate_dispatch (cfg : CrawlConfig)
    (oracle : String → Option (List String)) (base : String) (e : ExecState)
    (he : CrawlReachable cfg oracle base e) :
    ∀ u : String, e.dispatched.count u ≤ 1 := by
  have h := (inv_reachable cfg oracle base e he).ndDisp
  intro u
  exact List.nodup_iff_count_le_one.mp h u

/-- Witness for C5: in state `c1e4` (where `"b/6"` was rediscovered while
queued and `"b/1"` has resolved) the base URL has been dispatched exactly
once. -/
theorem no_duplicate_dispatch_witness : c1e4.dispatched.count "b/" ≤ 1 := by
  have hreach : CrawlReachable qcfg c1oracle "b/" c1e4 := by
    show Relation.ReflTransGen (CrawlStep qcfg c1oracle) (initExec "b/") c1e4
    refine Relation.ReflTransGen.head (CrawlStep.dispatch _ _ rfl (by decide) rfl) ?_
    refine Relation.ReflTransGen.head (CrawlStep.resolve _ _ "b/" (by decide) rfl) ?_
    refine Relation.ReflTransGen.head (CrawlStep.dispatch _ _ (by decide) (by decide) rfl) ?_
    exact Relation.ReflTransGen.single (CrawlStep.resolve _ _ "b/1" (by decide) rfl)
  exact no_duplicate_dispatch qcfg c1oracle "b/" c1e4 hreach "b/"

/-- C6: a candidate URL whose computed depth (its segment count minus the base
URL's segment count) exceeds `config.crawlLevel` is never added to the
Frontier by `queueUrls`, in any state (so also under repeated presentation):
its Frontier membership is exactly what it was before the call, and if it was
presented it is recorded into `processesCompleted` as ignored. -/
theorem deep_url_never_enters_frontier (cfg : CrawlConfig) (s : CrawlState)
    (urls : List String) (u : String)
    (hdeep : cfg.crawlLevel < urlDepth cfg u) :
    (u ∈ (queueUrls cfg s urls).processes ↔ u ∈ s.processes) ∧
    (u ∈ urls → u ∈ (queueUrls cfg s urls).processesCompleted) := by
  have hnotril : u ∉ removingIngoreLevels cfg s urls := by
    intro h
    have := ((mem_removingIngoreLevels cfg s urls u).mp h).2.2.2
    omega
  constructor
  · rw [mem_queueUrls_processes]
    constructor
    · rintro (h | h)
      · exact h
      · exact absurd h hnotril
    · exact Or.inl
  · intro hu
    rw [mem_queueUrls_processesCompleted]
    exact Or.inr ((mem_urlsIgnored cfg s urls u).mpr ⟨hu, hnotril⟩)

/-- Witness for C6: `"b/1/2/3"` has depth 2 > crawlLevel 1; presenting it to
`queueUrls` leaves the (empty) Frontier without it and records it as
completed/ignored. -/
theorem deep_url_never_enters_frontier_witness :
    ("b/1/2/3" ∈ (queueUrls qcfg qs0 ["b/1/2/3"]).processes ↔
      "b/1/2/3" ∈ qs0.processes) ∧
    "b/1/2/3" ∈ (queueUrls qcfg qs0 ["b/1/2/3"]).processesCompleted := by
  have h := deep_url_never_enters_frontier qcfg qs0 ["b/1/2/3"] "b/1/2/3" (by decide)
  exact ⟨h.1, h.2 (by decide)⟩

/-- C7, counterexample: in the reachable state `c7e2` the first batch has
fully resolved (`inFlight = []`), and the two completion checks disagree:
`counter = dataFetched` holds (1 = 1) while `processes = []` fails (the
frontier holds `/a` and `/b`), refuting the claimed equivalence of the two
checks. -/
theorem completion_checks_disagree_counterexample :
    CrawlReachable c2cfg c2oracle "https://example.com/" c7e2 ∧
    c7e2.inFlight = [] ∧
    ¬ (c7e2.crawl.processes = [] ↔ c7e2.crawl.counter = c7e2.crawl.dataFetched) := by
  refine ⟨?_, by decide, by decide⟩
  show Relation.ReflTransGen (CrawlStep c2cfg c2oracle)
    (initExec "https://example.com/") c7e2
  refine Relation.ReflTransGen.head (CrawlStep.dispatch _ _ rfl (by decide) rfl) ?_
  exact Relation.ReflTransGen.single
    (CrawlStep.resolve _ _ "https://example.com/" (by decide) rfl)

/-- C7, amended: in every reachable state `counter` exceeds `dataFetched` by
exactly the number of outstanding fetches; hence whenever a batch has fully
resolved (`inFlight = []`) the check `counter = dataFetched` holds
unconditionally — including under partial failure — and says nothing about the
Frontier, so finalization is decided by the Frontier check alone and occurs
iff Frontier and InFlight are both empty. -/
theorem counter_eq_dataFetched_plus_inflight (cfg : CrawlConfig)
    (oracle : String → Option (List String)) (base : String) (e : ExecState)
    (he : CrawlReachable cfg oracle base e) :
    e.crawl.counter = e.crawl.dataFetched + e.inFlight.length ∧
    (e.inFlight = [] → e.crawl.counter = e.crawl.dataFetched) := by
  have h := (inv_reachable cfg oracle base e he).counterEq
  refine ⟨h, fun hin => ?_⟩
  rw [hin] at h
  simpa using h

/-- Witness for the amended C7 at the reachable state `c7e2`. -/
theorem counter_eq_dataFetched_plus_inflight_witness :
    c7e2.crawl.counter = c7e2.crawl.dataFetched + c7e2.inFlight.length ∧
    c7e2.crawl.counter = c7e2.crawl.dataFetched := by
  have hreach : CrawlReachable c2cfg c2oracle "https://example.com/" c7e2 := by
    show Relation.ReflTransGen (CrawlStep c2cfg c2oracle)
      (initExec "https://example.com/") c7e2
    refine Relation.ReflTransGen.head (CrawlStep.dispatch _ _ rfl (by decide) rfl) ?_
    exact Relation.ReflTransGen.single
      (CrawlStep.resolve _ _ "https://example.com/" (by decide) rfl)
  have h := counter_eq_dataFetched_plus_inflight c2cfg c2oracle
    "https://example.com/" c7e2 hreach
  exact ⟨h.1, h.2 (by decide)⟩

/-- C8: fetch failures are isolated.  A failing resolution increments
`dataFetched` exactly as a success does (so termination detection still
progresses); `allUrls` never shrinks across any step; a successful fetch's
extracted links are all in `allUrls` immediately after its resolution; every
in-flight (hence every successfully fetched) URL is itself in `allUrls`; and
in the concrete 10-URL scenario where 1 fetch fails the crawl still runs to
finalization with the base, all ten links and the extra discovered page in the
final set. -/
theorem fetch_failure_isolated (cfg : CrawlConfig)
    (oracle : String → Option (List String)) (base : String) :
    (∀ s u, (resolveOne cfg oracle s u).dataFetched = s.dataFetched + 1) ∧
    (∀ e e', CrawlStep cfg oracle e e' → ∀ v ∈ e.crawl.allUrls, v ∈ e'.crawl.allUrls) ∧
    (∀ e u links, oracle u = some links →
        ∀ v ∈ links, v ∈ (resolveStep cfg oracle e u).crawl.allUrls) ∧
    (∀ e, CrawlReachable cfg oracle base e → ∀ u ∈ e.inFlight, u ∈ e.crawl.allUrls) ∧
    (autoFetchRun c8cfg c8oracle 10 (initExec "b/") = some c8final ∧
      c8final.crawl.processes = [] ∧ c8final.inFlight = [] ∧
      c8final.crawl.allUrls = ["b/", "b/1", "b/2", "b/3", "b/4", "b/5", "b/6",
        "b/7", "b/8", "b/9", "b/x", "b/1/c"]) := by
  refine ⟨resolveOne_dataFetched cfg oracle,
    step_allUrls_mono cfg oracle, ?_, ?_, by decide, by decide, by decide, by decide⟩
  · intro e u links h v hv
    simp only [resolveStep, resolveOne, h, queueUrls_allUrls]
    exact (mem_union v _ _).mpr (Or.inr hv)
  · intro e he
    exact (inv_reachable cfg oracle base e he).inflSubAll

/-- Witness for C8: the failing fetch of `"b/x"` increments `dataFetched` like
a success, and the link `"b/1/c"` extracted by the successful fetch of `"b/1"`
is present right after that resolution. -/
theorem fetch_failure_isolated_witness :
    (resolveOne c8cfg c8oracle (initState "b/") "b/x").dataFetched =
      (initState "b/").dataFetched + 1 ∧
    "b/1/c" ∈ (resolveStep c8cfg c8oracle (initExec "b/") "b/1").crawl.allUrls := by
  constructor
  · exact (fetch_failure_isolated c8cfg c8oracle "b/").1 (initState "b/") "b/x"
  · exact (fetch_failure_isolated c8cfg c8oracle "b/").2.2.1 (initExec "b/")
      "b/1" ["b/1/c"] (by decide) "b/1/c" (by decide)

/-- C9: for a finite URL universe `U` containing the seed and closed under the
oracle's links, the crawl terminates: some reachable state has empty Frontier
and empty InFlight (where `autoFetch` finalizes the sitemap), and no infinite
run of dispatches/resolutions exists at all. -/
theorem crawl_terminates (cfg : CrawlConfig)
    (oracle : String → Option (List String)) (base : String) (U : Finset String)
    (hbase : base ∈ U)
    (hclosed : ∀ u links, oracle u = some links → ∀ v ∈ links, v ∈ U) :
    (∃ t, CrawlReachable cfg oracle base t ∧ t.inFlight = [] ∧
        t.crawl.processes = []) ∧
    ¬ ∃ f : Nat → ExecState, f 0 = initExec base ∧
        ∀ n, CrawlStep cfg oracle (f n) (f (n + 1)) := by
  constructor
  · obtain ⟨t, h1, h2⟩ := exists_reachable_terminal cfg oracle base U hbase hclosed
    exact ⟨t, h1, h2.1, h2.2⟩
  · rintro ⟨f, h0, hstep⟩
    exact no_infinite_run_aux cfg oracle base U hbase hclosed f h0 hstep

/-- Witness for C9: the universe `{"b/"}` with the all-failing oracle. -/
theorem crawl_terminates_witness :
    (∃ t, CrawlReachable qcfg failOracle "b/" t ∧ t.inFlight = [] ∧
        t.crawl.processes = []) ∧
    ¬ ∃ f : Nat → ExecState, f 0 = initExec "b/" ∧
        ∀ n, CrawlStep qcfg failOracle (f n) (f (n + 1)) := by
  refine crawl_terminates qcfg failOracle "b/" {"b/"} (by simp) ?_
  intro u links h
  simp [failOracle] at h

/-- C10: the failure handler is a pure frame on `dataFetched`: when the oracle
fails on `u` the resolved state is exactly the old state with `dataFetched`
incremented — `allUrls`, `processes`, `processesCompleted` and `counter` are
untouched — and in every reachable state every in-flight URL (in particular a
failing one) is already in `processesCompleted`, having been moved there at
dispatch time, so no rollback is needed. -/
theorem failure_touches_only_dataFetched (cfg : CrawlConfig)
    (oracle : String → Option (List String)) (base : String) :
    (∀ s u, oracle u = none →
        resolveOne cfg oracle s u = { s with dataFetched := s.dataFetched + 1 }) ∧
    (∀ e, CrawlReachable cfg oracle base e →
        ∀ u ∈ e.inFlight, u ∈ e.crawl.processesCompleted) := by
  constructor
  · intro s u h
    simp [resolveOne, h]
  · intro e he
    exact (inv_reachable cfg oracle base e he).inflSubComp

/-- Witness for C10: the failing fetch of `"b/"` under the all-failing oracle
only bumps `dataFetched`, and in the dispatched state `c1e1` the in-flight
base URL is already completed. -/
theorem failure_touches_only_dataFetched_witness :
    resolveOne qcfg failOracle (initState "b/") "b/" =
      { initState "b/" with dataFetched := (initState "b/").dataFetched + 1 } ∧
    "b/" ∈ c1e1.crawl.processesCompleted := by
  constructor
  · exact (failure_touches_only_dataFetched qcfg failOracle "b/").1
      (initState "b/") "b/" rfl
  · refine (failure_touches_only_dataFetched qcfg c1oracle "b/").2 c1e1 ?_ "b/" (by decide)
    show Relation.ReflTransGen (CrawlStep qcfg c1oracle) (initExec "b/") c1e1
    exact Relation.ReflTransGen.single (CrawlStep.dispatch _ _ rfl (by decide) rfl)
